import Mathlib

/-!
Verification of the core statistical routines of the fixel-based analysis
engine (connectivity-based fixel enhancement, CFE).

The development shallowly embeds three source units:

* `src/stats/permute.h` — the FWE p-value computation `statistic2pvalue`
  and the contrast validation of `TFCEProcessorBase`;
* `lib/math/stats/glm.h` — contrast scaling (`GLM::scale_contrasts`),
  the batched fixed-design t-test (`GLM::ttest`, `GLMTTest::operator()`);
* `cmd/fixelcfestats.cpp` — the connectivity-matrix normalisation and
  smoothing-weight derivation loop, the NaN-aware data smoother, and the
  streamline-count validation.

Real (`float`/`double`) arithmetic is modelled over `ℚ`.  The three
irrational primitives used by the code — `std::sqrt`, `std::exp` and
`std::pow(·, c)` — are modelled as abstract function parameters
(`sqrtFn`, `gaussExp`, `powC`): every claim proved here concerns data
flow, guards, index ranges or exact algebraic identities that hold for
any interpretation of those primitives.  Non-finite floating values
(`NaN`/`inf`) are modelled with `Option ℚ` where the code tests
`std::isfinite`, and division by a zero denominator is gated explicitly
wherever the code's behaviour depends on it.
-/

/-! ## FWE p-values: `statistic2pvalue` (src/stats/permute.h, lines 192–216)

The C++ routine copies the permutation distribution, sorts it
ascending, and then for every observed statistic `tvalue` runs

    if (tvalue > 0.0) {
      value_type pvalue = 1.0;
      for (size_t i = 0; i < permutations.size(); ++i) {
        if (tvalue < permutations[i]) { pvalue = i / n; break; }
      }
      p = pvalue;
    } else p = 0.0;
-/

/-- The inner scan of `statistic2pvalue`: walk the sorted distribution and
return `idx / n` for the first element strictly greater than `t`
(`idx` is the running 0-based index), or `1` if none is greater. -/
def pvalue_loop (l : List ℚ) (t : ℚ) (n : ℕ) (idx : ℕ) : ℚ :=
  match l with
  | [] => 1
  | x :: xs => if t < x then (idx : ℚ) / (n : ℚ) else pvalue_loop xs t n (idx + 1)

/-- `statistic2pvalue` for a single observed statistic: sort the
permutation distribution ascending, then scan (per-voxel loop body of
the C++ template).  Returns the stored "p-value" of the code, which is
`0` for non-positive statistics. -/
def statistic2pvalue (perm_dist : List ℚ) (tvalue : ℚ) : ℚ :=
  if tvalue > 0 then
    pvalue_loop (perm_dist.insertionSort (· ≤ ·)) tvalue perm_dist.length 0
  else 0

lemma pvalue_loop_sorted (t : ℚ) (n : ℕ) :
    ∀ (l : List ℚ), l.Sorted (· ≤ ·) → ∀ (idx : ℕ),
      pvalue_loop l t n idx =
        if l.countP (fun x => decide (t < x)) = 0 then 1
        else (((idx + (l.length - l.countP (fun x => decide (t < x)))) : ℕ) : ℚ) / (n : ℚ) := by
  intro l
  induction l with
  | nil => intro _ idx; simp [pvalue_loop]
  | cons x xs ih =>
    intro hs idx
    rw [List.sorted_cons] at hs
    obtain ⟨hx, hxs⟩ := hs
    by_cases h : t < x
    · have hall : ∀ y ∈ xs, t < y := fun y hy => lt_of_lt_of_le h (hx y hy)
      have hcount : (x :: xs).countP (fun x => decide (t < x)) = (x :: xs).length := by
        rw [List.countP_eq_length]
        intro a ha
        rcases List.mem_cons.mp ha with rfl | ha
        · simp [h]
        · exact decide_eq_true (hall a ha)
      rw [pvalue_loop, if_pos h, hcount]
      rw [if_neg (by simp)]
      simp
    · have hcount : (x :: xs).countP (fun x => decide (t < x))
          = xs.countP (fun x => decide (t < x)) := by
        rw [List.countP_cons]
        simp [h]
      rw [pvalue_loop, if_neg h, ih hxs (idx + 1), hcount]
      by_cases hz : xs.countP (fun x => decide (t < x)) = 0
      · rw [if_pos hz, if_pos hz]
      · rw [if_neg hz, if_neg hz]
        have hle : xs.countP (fun x => decide (t < x)) ≤ xs.length :=
          List.countP_le_length _
        congr 2
        simp only [List.length_cons]
        omega

/-- C1: For every permutation max-statistic distribution and every observed
statistic `t_obs`, the FWE p-value computed by `statistic2pvalue` equals `0`
when `t_obs ≤ 0`, and otherwise equals
`1 − rank / num_perms`, where `rank` is the number of permutation values
strictly greater than `t_obs` — i.e. the rank, counted from the top of the
ascending-sorted distribution, of the smallest permutation value strictly
greater than `t_obs` (`rank = 0` when no value exceeds `t_obs`, in which
case the stored p-value is `1`). -/
theorem statistic2pvalue_rank_formula (perm_dist : List ℚ) (tvalue : ℚ) :
    statistic2pvalue perm_dist tvalue =
      if tvalue ≤ 0 then 0
      else 1 - ((perm_dist.countP (fun x => decide (tvalue < x)) : ℚ)
                  / (perm_dist.length : ℚ)) := by
  unfold statistic2pvalue
  by_cases ht : tvalue > 0
  · rw [if_pos ht, if_neg (by linarith)]
    have hperm : List.Perm (perm_dist.insertionSort (· ≤ ·)) perm_dist :=
      List.perm_insertionSort _ _
    have hsorted : (perm_dist.insertionSort (· ≤ ·)).Sorted (· ≤ ·) :=
      List.sorted_insertionSort _ _
    rw [pvalue_loop_sorted tvalue perm_dist.length _ hsorted 0]
    rw [hperm.countP_eq, hperm.length_eq]
    by_cases hz : perm_dist.countP (fun x => decide (tvalue < x)) = 0
    · rw [if_pos hz, hz]
      simp
    · rw [if_neg hz]
      set c := perm_dist.countP (fun x => decide (tvalue < x)) with hc
      have hcle : c ≤ perm_dist.length := List.countP_le_length _
      have hlenpos : 0 < perm_dist.length := lt_of_lt_of_le (Nat.pos_of_ne_zero hz) hcle
      have hlenne : ((perm_dist.length : ℚ)) ≠ 0 := by
        exact_mod_cast Nat.pos_iff_ne_zero.mp hlenpos
      rw [Nat.zero_add, Nat.cast_sub hcle]
      field_simp
  · rw [if_neg ht, if_pos (by linarith)]

/-! ## GLM t-test engine (lib/math/stats/glm.h)

Matrices are embedded as a dimension pair plus a total entry function;
out-of-range reads (which the C++ performs, as undefined behaviour, for
measurement matrices with more than `GLM_BATCH_SIZE` rows) simply read
the total function, so they are representable and provable about. -/

/-- A real matrix: row and column counts plus a total entry function
(`entry i j` for row `i`, column `j`). -/
structure Mat where
  rows : ℕ
  cols : ℕ
  entry : ℕ → ℕ → ℚ

/-- Matrix product `A * B` (contraction over `A.cols` terms, as Eigen does). -/
def matMul (A B : Mat) : Mat :=
  ⟨A.rows, B.cols, fun i j => ∑ k ∈ Finset.range A.cols, A.entry i k * B.entry k j⟩

/-- Entrywise matrix difference. -/
def matSub (A B : Mat) : Mat :=
  ⟨A.rows, A.cols, fun i j => A.entry i j - B.entry i j⟩

/-- Matrix transpose. -/
def matTranspose (A : Mat) : Mat :=
  ⟨A.cols, A.rows, fun i j => A.entry j i⟩

/-- Sum of squares of row `n` (the square of Eigen's `row(n).norm()`). -/
def rowSumSq (A : Mat) (n : ℕ) : ℚ :=
  ∑ j ∈ Finset.range A.cols, (A.entry n j) ^ 2

/-- `GLM_BATCH_SIZE` from glm.h line 27. -/
def GLM_BATCH_SIZE : ℕ := 1024

/-- The batch start indices of the loop
`for (i = 0; i < y.rows(); i += GLM_BATCH_SIZE)` over `N` measurement rows. -/
def glmBatchStarts (N : ℕ) : List ℕ :=
  (List.range ((N + GLM_BATCH_SIZE - 1) / GLM_BATCH_SIZE)).map (· * GLM_BATCH_SIZE)

/-- The number of rows of the block taken at batch start `i`:
glm.h line 193 computes `std::min (i + GLM_BATCH_SIZE, y.rows())` and passes
it as the block-row-count argument of `Eigen`'s `block`. -/
def glmBlockRows (N i : ℕ) : ℕ := min (i + GLM_BATCH_SIZE) N

/-- `GLM::ttest` (glm.h lines 72–87): given the (already transposed) design
`SXᵀ`, its (already transposed) pseudo-inverse `pinvSXᵀ`, a batch of
measurement rows and the stored scaled-contrast matrix, return
`(tvalues, betas, residuals)` where

* `betas = measurements * pinv_design`
* `residuals = measurements − betas * design`
* `tvalues = (betas * scaled_contrasts)` with each row divided by that
  row's residual norm (`sqrtFn` models the real square root applied to
  the row's sum of squares). -/
def ttest (design pinv_design measurements scaled_contrasts : Mat)
    (sqrtFn : ℚ → ℚ) : Mat × Mat × Mat :=
  let betas := matMul measurements pinv_design
  let residuals := matSub measurements (matMul betas design)
  let tvalues0 := matMul betas scaled_contrasts
  (⟨tvalues0.rows, tvalues0.cols,
      fun n j => tvalues0.entry n j / sqrtFn (rowSumSq residuals n)⟩,
   betas, residuals)

/-- `GLMTTest::operator()` (glm.h lines 176–208).  `X` and `pinvX` are the
stored design and its pseudo-inverse (the pseudo-inverse is an input to the
model, as the constructor computes it by SVD); `scaled_contrasts` is the
stored matrix (already transposed, so its column 0 is the scaled first
contrast row); `perm` is the permutation labelling; `y` the measurement
matrix; `max0`/`min0` the caller-initialised running extrema.

The body permutes rows of `X` and columns of `pinvX`, transposes both, and
processes batches: for each batch row `n`, the value `tvalues(n,0)` is
written into `stats[i+n]` and folded into the extrema, except that a
non-finite value — which arises exactly when the residual row is zero, so
that the division is by a zero norm — is replaced by `0` and skipped in
the extrema updates.  The buggy block extent `glmBlockRows` is embedded
exactly as written; reads beyond `y.rows` hit the total entry function
and writes beyond `y.rows` land in the `ℕ → ℚ` accumulator but are
dropped when the first `y.rows` entries are extracted.

`glmRowStep` is the body of the inner loop over the rows of one batch
(glm.h lines 195–206), `glmBatchStep` one iteration of the batch loop
(lines 192–207), and `glmttest_run` the whole member function. -/
def glmRowStep (tvalues residuals : Mat) (i : ℕ)
    (acc2 : (ℕ → ℚ) × ℚ × ℚ) (n : ℕ) : (ℕ → ℚ) × ℚ × ℚ :=
  let ssq := rowSumSq residuals n
  let val : ℚ := if ssq = 0 then 0 else tvalues.entry n 0
  (Function.update acc2.1 (i + n) val,
   if ssq = 0 then acc2.2.1 else if val > acc2.2.1 then val else acc2.2.1,
   if ssq = 0 then acc2.2.2 else if val < acc2.2.2 then val else acc2.2.2)

def glmBatchStep (SXt pinvSXt scaled_contrasts : Mat) (sqrtFn : ℚ → ℚ) (y : Mat)
    (acc : (ℕ → ℚ) × ℚ × ℚ) (i : ℕ) : (ℕ → ℚ) × ℚ × ℚ :=
  let tmp : Mat := ⟨glmBlockRows y.rows i, y.cols, fun r c => y.entry (i + r) c⟩
  let res := ttest SXt pinvSXt tmp scaled_contrasts sqrtFn
  (List.range (glmBlockRows y.rows i)).foldl (glmRowStep res.1 res.2.2 i) acc

def glmttest_run (X pinvX scaled_contrasts : Mat) (sqrtFn : ℚ → ℚ)
    (perm : ℕ → ℕ) (y : Mat) (max0 min0 : ℚ) : List ℚ × ℚ × ℚ :=
  let SXt := matTranspose ⟨X.rows, X.cols, fun i j => X.entry (perm i) j⟩
  let pinvSXt := matTranspose ⟨pinvX.rows, pinvX.cols, fun i j => pinvX.entry i (perm j)⟩
  let final := (glmBatchStarts y.rows).foldl
    (glmBatchStep SXt pinvSXt scaled_contrasts sqrtFn y) (fun _ => (0 : ℚ), max0, min0)
  ((List.range y.rows).map final.1, final.2.1, final.2.2)

/-- C2 (code evaluation at the failing input): with `N = 1025` measurement
rows — one more than `GLM_BATCH_SIZE` — the batch loop runs a second
iteration at `i = 1024` whose block is given `glmBlockRows 1025 1024 = 1025`
rows, so the block covers source rows `1024 … 2048`: its end `i + rows`
is `2049 > 1025`, i.e. the block (and the corresponding `stats[i+n]`
writes) extends `1024` rows past the end of the matrix.  A correct batch
extent would be `min (GLM_BATCH_SIZE) (N − i) = 1` row. -/
theorem glm_batch_block_out_of_range :
    glmBatchStarts 1025 = [0, 1024] ∧
    glmBlockRows 1025 1024 = 1025 ∧
    1024 + glmBlockRows 1025 1024 = 2049 ∧
    1025 < 1024 + glmBlockRows 1025 1024 := by
  refine ⟨?_, by decide, by decide, by decide⟩
  decide

lemma ttest_residuals_indep (design pinv_design measurements sc1 sc2 : Mat)
    (sqrtFn : ℚ → ℚ) :
    (ttest design pinv_design measurements sc1 sqrtFn).2.2
      = (ttest design pinv_design measurements sc2 sqrtFn).2.2 := rfl

lemma ttest_entry_col0_congr (design pinv_design measurements sc1 sc2 : Mat)
    (sqrtFn : ℚ → ℚ) (h : ∀ i, sc1.entry i 0 = sc2.entry i 0) (n : ℕ) :
    (ttest design pinv_design measurements sc1 sqrtFn).1.entry n 0
      = (ttest design pinv_design measurements sc2 sqrtFn).1.entry n 0 := by
  dsimp only [ttest, matMul]
  congr 1
  exact Finset.sum_congr rfl (fun k _ => by rw [h k])

lemma glmRowStep_congr (t1 t2 r : Mat) (i : ℕ)
    (h : ∀ n, t1.entry n 0 = t2.entry n 0) :
    glmRowStep t1 r i = glmRowStep t2 r i := by
  funext acc2 n
  dsimp only [glmRowStep]
  rw [h n]

lemma glmBatchStep_congr (SXt pinvSXt sc1 sc2 : Mat) (sqrtFn : ℚ → ℚ) (y : Mat)
    (h : ∀ i, sc1.entry i 0 = sc2.entry i 0) :
    glmBatchStep SXt pinvSXt sc1 sqrtFn y = glmBatchStep SXt pinvSXt sc2 sqrtFn y := by
  funext acc i
  dsimp only [glmBatchStep]
  rw [glmRowStep_congr _ _ _ i
    (fun n => ttest_entry_col0_congr _ _ _ sc1 sc2 sqrtFn h n)]
  rfl

/-- C7: the outputs of the fixed-design `GLMTTest::operator()` — the stats
vector, `max_stat` and `min_stat` — depend only on column 0 of the stored
`scaled_contrasts` matrix.  The stored matrix is the transpose of the
scaled contrast matrix (glm.h line 165), so its column 0 is the scaled
first contrast row, and `GLM::scale_contrasts` scales each contrast row by
a factor computed from that row alone; hence two runs whose contrast
matrices agree on the first row produce identical outputs regardless of
the remaining contrast rows (only `tvalues(n,0)` is ever read, glm.h
line 196). -/
theorem glmttest_first_contrast_row_only (X pinvX sc1 sc2 : Mat)
    (sqrtFn : ℚ → ℚ) (perm : ℕ → ℕ) (y : Mat) (max0 min0 : ℚ)
    (hcol0 : ∀ i, sc1.entry i 0 = sc2.entry i 0) :
    glmttest_run X pinvX sc1 sqrtFn perm y max0 min0 =
      glmttest_run X pinvX sc2 sqrtFn perm y max0 min0 := by
  simp only [glmttest_run]
  rw [glmBatchStep_congr _ _ sc1 sc2 sqrtFn y hcol0]

def scW1 : Mat := ⟨1, 2, fun _ j => if j = 0 then 1 else 2⟩

def scW2 : Mat := ⟨1, 2, fun _ j => if j = 0 then 1 else 3⟩

def matW : Mat := ⟨1, 1, fun _ _ => 1⟩

def yW : Mat := ⟨1, 1, fun _ _ => 2⟩

theorem glmttest_first_contrast_row_only_witness :
    (scW1.entry 7 0 = scW2.entry 7 0) ∧
    glmttest_run matW matW scW1 id id yW 0 0 =
      glmttest_run matW matW scW2 id id yW 0 0 :=
  ⟨rfl, glmttest_first_contrast_row_only matW matW scW1 scW2 id id yW 0 0
    (fun _ => rfl)⟩

/-! ## Contrast validation (glm.h lines 40–61, permute.h lines 106–111)

`GLM::scale_contrasts` copies the contrast matrix, throws if it has both
more than one row and more than one column, transposes it when it has
more than one row, destructively resizes it to `design.cols()` columns,
and then scales each of the ORIGINAL `contrasts.rows()` rows by
`sqrt(df / (c_n · pinv(XᵀX) · c_nᵀ))`.  Two behaviours beyond the thrown
exception are modelled as `.undef` (they are undefined behaviour in the
C++, not exceptions): reading values discarded by a size-changing
`Eigen` `resize`, and the scaling loop indexing rows that no longer
exist after the transpose collapsed the matrix to a single row. -/

inductive GlmError where
  | exn : String → GlmError
  | undef : GlmError

/-- `GLM::scale_contrasts`.  `XtX` models `Math::pinv(designᵀ·design)` and
`sqrtFn` the real square root. -/
def scale_contrasts (XtX : Mat) (sqrtFn : ℚ → ℚ) (design : Mat)
    (degrees_of_freedom : ℕ) (contrasts : Mat) : Except GlmError Mat :=
  if 1 < contrasts.cols ∧ 1 < contrasts.rows then
    .error (.exn "too many columns in contrast matrix: this implementation currently only supports univariate GLM")
  else
    let sc := if 1 < contrasts.rows then matTranspose contrasts else contrasts
    if sc.cols ≠ design.cols then .error .undef
    else if sc.rows < contrasts.rows then .error .undef
    else
      .ok ⟨sc.rows, design.cols, fun n j =>
        sc.entry n j * sqrtFn ((degrees_of_freedom : ℚ) /
          (∑ a ∈ Finset.range contrasts.cols, contrasts.entry n a *
            (∑ b ∈ Finset.range contrasts.cols, XtX.entry a b * contrasts.entry n b)))⟩

/-- The contrast validation prologue of `TFCEProcessorBase`
(permute.h lines 106–111): throw on a multivariate contrast, then
transpose a row vector into a column vector. -/
def tfce_contrast_check (contrast_matrix : Mat) : Except GlmError Mat :=
  if 1 < contrast_matrix.cols ∧ 1 < contrast_matrix.rows then
    .error (.exn "too many columns in contrast matrix: this implementation currently only supports univariate GLM")
  else .ok (if 1 < contrast_matrix.cols then matTranspose contrast_matrix
            else contrast_matrix)

/-- C8: contrast scaling (`GLM::scale_contrasts`) and the t-test processor
construction (`TFCEProcessorBase`) raise their exception exactly when the
contrast matrix has both more than one row and more than one column; a
contrast with a single row or a single column passes the exception check.
(For a single-column contrast with several rows the code later performs
out-of-bounds row accesses — modelled as `.undef` — but that is undefined
behaviour, not the raised exception.) -/
theorem contrast_validation_univariate (XtX : Mat) (sqrtFn : ℚ → ℚ)
    (design : Mat) (df : ℕ) (c : Mat) :
    ((∃ msg, scale_contrasts XtX sqrtFn design df c = .error (.exn msg)) ↔
      (1 < c.rows ∧ 1 < c.cols)) ∧
    ((∃ msg, tfce_contrast_check c = .error (.exn msg)) ↔
      (1 < c.rows ∧ 1 < c.cols)) := by
  constructor
  · unfold scale_contrasts
    by_cases h : 1 < c.cols ∧ 1 < c.rows
    · simp only [if_pos h]
      exact ⟨fun _ => ⟨h.2, h.1⟩, fun _ => ⟨_, rfl⟩⟩
    · simp only [if_neg h]
      constructor
      · rintro ⟨msg, hmsg⟩
        split_ifs at hmsg <;> simp_all
      · intro hrc
        exact absurd ⟨hrc.2, hrc.1⟩ h
  · unfold tfce_contrast_check
    by_cases h : 1 < c.cols ∧ 1 < c.rows
    · simp only [if_pos h]
      exact ⟨fun _ => ⟨h.2, h.1⟩, fun _ => ⟨_, rfl⟩⟩
    · simp only [if_neg h]
      constructor
      · rintro ⟨msg, hmsg⟩
        simp_all
      · intro hrc
        exact absurd ⟨hrc.2, hrc.1⟩ h

/-! ## Connectivity normalisation and smoothing weights
(cmd/fixelcfestats.cpp, lines 319–367)

Per fixel `i`, the loop walks the fixel's connectivity map
(key → streamline co-traversal count), divides each count by `TDI[i]`,
erases entries whose fraction falls below the connectivity threshold,
optionally records a Gaussian smoothing weight when the fraction times
the Gaussian factor exceeds `0.01`, replaces each surviving value with
`fraction^C`, inserts the self entries (`std::map::insert` does not
overwrite an existing key), and finally normalises the smoothing
weights to unit sum.

`std::map`s are embedded as association lists.  `g1` models
`gaussian_const1 = 1/(σ·sqrt(2π))` for `σ > 0` (line 327), `gaussExp`
models `x ↦ exp(−x / (2σ²))` applied to the squared distance (lines
342–345 square a square root, so the argument is the squared distance),
and `powC` models `x ↦ std::pow(x, cfe_c)` (line 350). -/

structure NormParams where
  connectivity_threshold : ℚ
  smooth_std_dev : ℚ
  g1 : ℚ
  gaussExp : ℚ → ℚ
  powC : ℚ → ℚ
  pos : ℕ → ℚ × ℚ × ℚ

/-- `do_smoothing` (fixelcfestats.cpp lines 321–326). -/
def doSmoothing (p : NormParams) : Bool := decide (0 < p.smooth_std_dev)

/-- `gaussian_const1` (fixelcfestats.cpp lines 324–328): `1` when smoothing
is disabled, `1/(σ·sqrt(2π))` (modelled by `p.g1`) otherwise. -/
def gaussianConst1 (p : NormParams) : ℚ :=
  if 0 < p.smooth_std_dev then p.g1 else 1

/-- Squared Euclidean distance between two fixel positions
(fixelcfestats.cpp lines 342–344). -/
def distSq (a b : ℚ × ℚ × ℚ) : ℚ :=
  (a.1 - b.1) ^ 2 + (a.2.1 - b.2.1) ^ 2 + (a.2.2 - b.2.2) ^ 2

/-- `std::map::insert`: add `(k, v)` only when key `k` is absent. -/
def mapInsertIfAbsent (l : List (ℕ × ℚ)) (k : ℕ) (v : ℚ) : List (ℕ × ℚ) :=
  if l.any (fun q => q.1 == k) then l else l ++ [(k, v)]

/-- The surviving connectivity row of fixel `i` before the self-loop
insertion: entries whose fraction reaches the threshold, with values
pre-exponentiated by `C` (fixelcfestats.cpp lines 335–353). -/
def connRowOut (p : NormParams) (conn : List (ℕ × ℚ)) (TDIi : ℚ) : List (ℕ × ℚ) :=
  conn.filterMap (fun q =>
    if q.2 / TDIi < p.connectivity_threshold then none
    else some (q.1, p.powC (q.2 / TDIi)))

/-- The raw (pre-normalisation, pre-self-insertion) smoothing weights of
fixel `i` (fixelcfestats.cpp lines 341–348): only computed when smoothing
is enabled, only for surviving edges, and only recorded when the weight
exceeds `0.01`. -/
def smoothRowRaw (p : NormParams) (i : ℕ) (conn : List (ℕ × ℚ)) (TDIi : ℚ) :
    List (ℕ × ℚ) :=
  if doSmoothing p then
    conn.filterMap (fun q =>
      if q.2 / TDIi < p.connectivity_threshold then none
      else if 1 / 100 < q.2 / TDIi * gaussianConst1 p *
                          p.gaussExp (distSq (p.pos i) (p.pos q.1))
      then some (q.1, q.2 / TDIi * gaussianConst1 p *
                        p.gaussExp (distSq (p.pos i) (p.pos q.1)))
      else none)
  else []

/-- The smoothing-weight row after the self-term insertion
(fixelcfestats.cpp line 356). -/
def smoothRowWithSelf (p : NormParams) (i : ℕ) (conn : List (ℕ × ℚ)) (TDIi : ℚ) :
    List (ℕ × ℚ) :=
  mapInsertIfAbsent (smoothRowRaw p i conn TDIi) i (gaussianConst1 p)

/-- The normalisation denominator `sum` (fixelcfestats.cpp lines 359–361). -/
def smoothingSum (p : NormParams) (i : ℕ) (conn : List (ℕ × ℚ)) (TDIi : ℚ) : ℚ :=
  ((smoothRowWithSelf p i conn TDIi).map Prod.snd).sum

/-- One iteration of the normalisation loop (fixelcfestats.cpp lines
333–366) for fixel `i`: returns the new connectivity row (thresholded,
pre-exponentiated, self-loop `= 1.0` inserted) and the normalised
smoothing-weight row (each raw weight multiplied by
`norm_factor = 1 / sum`). -/
def normaliseFixel (p : NormParams) (i : ℕ) (conn : List (ℕ × ℚ)) (TDIi : ℚ) :
    List (ℕ × ℚ) × List (ℕ × ℚ) :=
  (mapInsertIfAbsent (connRowOut p conn TDIi) i 1,
   (smoothRowWithSelf p i conn TDIi).map
     (fun q => (q.1, q.2 * (1 / smoothingSum p i conn TDIi))))

/-! ## Data smoother (cmd/fixelcfestats.cpp, lines 385–410)

For each subject column `y` and fixel `i`: if `y i` is finite, accumulate
`value += y j * smooth[i][j]` and `sum_weights += smooth[i][j]` over the
entries `j` of the smoothing-weight map whose `y j` is finite, and output
`value / sum_weights` when `sum_weights` is nonzero, `NaN` otherwise;
if `y i` is itself non-finite, output `NaN` immediately (lines 403–405).
Non-finite values are modelled by `Option ℚ` (`none` = non-finite). -/

def smoothFixel (weights : List (ℕ × ℚ)) (y : ℕ → Option ℚ) (i : ℕ) : Option ℚ :=
  match y i with
  | none => none
  | some _ =>
    let acc := weights.foldl
      (fun (a : ℚ × ℚ) q =>
        match y q.1 with
        | some v => (a.1 + v * q.2, a.2 + q.2)
        | none => a) (0, 0)
    if acc.2 ≠ 0 then some (acc.1 / acc.2) else none

/-- The smoother as the claim words it (spec §4.4): the weighted average
over the finite-valued neighbours, `NaN` exactly when no neighbour
(self included) is finite — with no gate on the fixel's own value. -/
def smoothFixelSpec (weights : List (ℕ × ℚ)) (y : ℕ → Option ℚ) : Option ℚ :=
  let finite := weights.filter (fun q => (y q.1).isSome)
  if finite.isEmpty then none
  else some ((finite.map (fun q => (y q.1).getD 0 * q.2)).sum
              / (finite.map Prod.snd).sum)

lemma smoothFixel_foldl (y : ℕ → Option ℚ) :
    ∀ (weights : List (ℕ × ℚ)) (a : ℚ × ℚ),
      weights.foldl
        (fun (a : ℚ × ℚ) q =>
          match y q.1 with
          | some v => (a.1 + v * q.2, a.2 + q.2)
          | none => a) a
      = (a.1 + ((weights.filter (fun q => (y q.1).isSome)).map
                  (fun q => (y q.1).getD 0 * q.2)).sum,
         a.2 + ((weights.filter (fun q => (y q.1).isSome)).map Prod.snd).sum) := by
  intro weights
  induction weights with
  | nil => intro a; simp
  | cons q qs ih =>
    intro a
    cases hq : y q.1 with
    | none =>
      simp only [List.foldl_cons, hq, List.filter_cons, Option.isSome_none,
        Bool.false_eq_true, if_false, ih]
    | some v =>
      simp only [List.foldl_cons, hq, List.filter_cons, Option.isSome_some,
        if_true, ih, List.map_cons, List.sum_cons, Option.getD_some]
      rw [Prod.mk.injEq]
      exact ⟨by ring, by ring⟩

/-- C3 (amended): the smoothed value of fixel `i` is `NaN` whenever the
fixel's own input value is non-finite; otherwise it is the weighted average
over finite-valued neighbours described by the spec (`NaN` when no
neighbour, self included, is finite).  The positivity hypothesis reflects
the smoothing weights produced by the normalisation phase, which are all
strictly positive. -/
theorem smoother_gates_on_own_value (weights : List (ℕ × ℚ)) (y : ℕ → Option ℚ)
    (i : ℕ) (hpos : ∀ q ∈ weights, 0 < q.2) :
    smoothFixel weights y i =
      if (y i).isSome then smoothFixelSpec weights y else none := by
  cases hyi : y i with
  | none => simp [smoothFixel, hyi]
  | some v =>
    simp only [smoothFixel, hyi, Option.isSome_some, if_true]
    rw [smoothFixel_foldl]
    simp only [zero_add]
    unfold smoothFixelSpec
    by_cases hemp : (weights.filter (fun q => (y q.1).isSome)).isEmpty
    · rw [List.isEmpty_iff] at hemp
      simp [hemp]
    · have hne : weights.filter (fun q => (y q.1).isSome) ≠ [] := by
        intro hnil
        rw [hnil] at hemp
        exact hemp rfl
      have hsumpos : 0 < ((weights.filter (fun q => (y q.1).isSome)).map Prod.snd).sum := by
        apply List.sum_pos
        · intro x hx
          obtain ⟨q, hq, rfl⟩ := List.mem_map.mp hx
          exact hpos q (List.mem_of_mem_filter hq)
        · simpa using hne
      rw [if_pos hsumpos.ne', if_neg hemp]

def cxWeights : List (ℕ × ℚ) := [(0, 1/2), (1, 1/2)]

def cxData : ℕ → Option ℚ := fun n => if n = 1 then some 1 else none

/-- C3 counterexample: fixel `0` has a non-finite own value but a
finite-valued neighbour (fixel `1`, weight `1/2`).  The code outputs `NaN`
(`none`) while the claimed behaviour outputs the finite value `1`. -/
theorem smoother_nan_counterexample :
    smoothFixel cxWeights cxData 0 = none ∧
    smoothFixelSpec cxWeights cxData = some 1 ∧
    (none : Option ℚ) ≠ some 1 := by
  refine ⟨?_, ?_, by simp⟩
  · simp [smoothFixel, cxData]
  · norm_num [smoothFixelSpec, cxWeights, cxData, List.filter_cons]

theorem smoother_gates_on_own_value_witness :
    (∀ q ∈ [((0 : ℕ), (1 : ℚ))], 0 < q.2) ∧
    smoothFixel [(0, 1)] (fun _ => some 2) 0 =
      (if ((fun _ => some (2 : ℚ)) 0).isSome
        then smoothFixelSpec [(0, 1)] (fun _ => some 2) else none) :=
  ⟨by norm_num, smoother_gates_on_own_value [(0, 1)] (fun _ => some 2) 0 (by norm_num)⟩

lemma connRowOut_mem (p : NormParams) (conn : List (ℕ × ℚ)) (TDIi : ℚ) :
    ∀ q ∈ connRowOut p conn TDIi,
      ∃ v, (q.1, v) ∈ conn ∧ q.2 = p.powC (v / TDIi) ∧
        ¬ (v / TDIi < p.connectivity_threshold) := by
  intro q hq
  unfold connRowOut at hq
  obtain ⟨a, ha, hfa⟩ := List.mem_filterMap.mp hq
  by_cases h : a.2 / TDIi < p.connectivity_threshold
  · rw [if_pos h] at hfa
    exact Option.noConfusion hfa
  · rw [if_neg h] at hfa
    injection hfa with hfa
    refine ⟨a.2, ?_, ?_, ?_⟩
    · rw [← hfa]
      simpa using ha
    · rw [← hfa]
    · exact h

lemma connRowOut_keys (p : NormParams) (conn : List (ℕ × ℚ)) (TDIi : ℚ) :
    (connRowOut p conn TDIi).map Prod.fst
      = (conn.filter
          (fun q => decide (p.connectivity_threshold ≤ q.2 / TDIi))).map Prod.fst := by
  induction conn with
  | nil => rfl
  | cons a l ih =>
    simp only [connRowOut, List.filterMap_cons, List.filter_cons] at *
    by_cases h : a.2 / TDIi < p.connectivity_threshold
    · rw [if_pos h]
      have hd : decide (p.connectivity_threshold ≤ a.2 / TDIi) = false := by
        simp [not_le.mpr h]
      rw [hd]
      simpa using ih
    · rw [if_neg h]
      have hd : decide (p.connectivity_threshold ≤ a.2 / TDIi) = true := by
        simp [not_lt.mp h]
      rw [hd]
      simpa using ih

lemma connRowOut_no_self (p : NormParams) (i : ℕ) (conn : List (ℕ × ℚ)) (TDIi : ℚ)
    (hself : ∀ q ∈ conn, q.1 ≠ i) :
    (connRowOut p conn TDIi).any (fun q => q.1 == i) = false := by
  rw [List.any_eq_false]
  intro q hq
  obtain ⟨v, hv, _, _⟩ := connRowOut_mem p conn TDIi q hq
  simpa using hself (q.1, v) hv

/-- C4 (amended): with `TDI[i] > 0`, the build invariant `count ≤ TDI[i]`
(spec §8: a pair count never exceeds the endpoint TDIs) and no self-edge
present before normalisation (spec §3: `i ≠ j` after build), the
normalised connectivity row of fixel `i` satisfies: the self-loop stores
exactly `1.0` (not `powC 1`); every retained non-self edge stores
`powC (count / TDI[i])` with `count / TDI[i] ∈ [threshold, 1]` — the
closed lower bound, since the code erases an edge only when its fraction
is strictly below the threshold — and the surviving keys are exactly the
keys whose fraction reaches the threshold, followed by the self key. -/
theorem connectivity_normalisation_amended (p : NormParams) (i : ℕ)
    (conn : List (ℕ × ℚ)) (TDIi : ℚ) (hT : 0 < TDIi)
    (hle : ∀ q ∈ conn, q.2 ≤ TDIi) (hself : ∀ q ∈ conn, q.1 ≠ i) :
    ((i, (1 : ℚ)) ∈ (normaliseFixel p i conn TDIi).1) ∧
    (∀ q ∈ (normaliseFixel p i conn TDIi).1, q.1 ≠ i →
      ∃ v, (q.1, v) ∈ conn ∧ q.2 = p.powC (v / TDIi) ∧
        p.connectivity_threshold ≤ v / TDIi ∧ v / TDIi ≤ 1) ∧
    ((normaliseFixel p i conn TDIi).1.map Prod.fst
      = (conn.filter
          (fun q => decide (p.connectivity_threshold ≤ q.2 / TDIi))).map Prod.fst
        ++ [i]) := by
  have habs := connRowOut_no_self p i conn TDIi hself
  have hins : (normaliseFixel p i conn TDIi).1
      = connRowOut p conn TDIi ++ [(i, 1)] := by
    show mapInsertIfAbsent (connRowOut p conn TDIi) i 1 = _
    unfold mapInsertIfAbsent
    rw [habs]
    simp
  refine ⟨?_, ?_, ?_⟩
  · rw [hins]
    exact List.mem_append_right _ (by simp)
  · intro q hq hqi
    rw [hins] at hq
    rcases List.mem_append.mp hq with hq | hq
    · obtain ⟨v, hv, hval, hfrac⟩ := connRowOut_mem p conn TDIi q hq
      exact ⟨v, hv, hval, not_lt.mp hfrac, (div_le_one hT).mpr (hle (q.1, v) hv)⟩
    · exfalso
      apply hqi
      simp only [List.mem_singleton] at hq
      rw [hq]
  · rw [hins, List.map_append, connRowOut_keys]
    rfl

lemma gaussianConst1_pos (p : NormParams) (hg : 0 < p.g1) :
    0 < gaussianConst1 p := by
  unfold gaussianConst1
  split_ifs
  · exact hg
  · norm_num

lemma smoothRowRaw_gt (p : NormParams) (i : ℕ) (conn : List (ℕ × ℚ)) (TDIi : ℚ) :
    ∀ q ∈ smoothRowRaw p i conn TDIi, 1 / 100 < q.2 := by
  intro q hq
  unfold smoothRowRaw at hq
  by_cases hd : doSmoothing p
  · rw [if_pos hd] at hq
    obtain ⟨a, ha, hfa⟩ := List.mem_filterMap.mp hq
    by_cases h1 : a.2 / TDIi < p.connectivity_threshold
    · rw [if_pos h1] at hfa
      exact Option.noConfusion hfa
    · rw [if_neg h1] at hfa
      by_cases h2 : 1 / 100 < a.2 / TDIi * gaussianConst1 p *
          p.gaussExp (distSq (p.pos i) (p.pos a.1))
      · rw [if_pos h2] at hfa
        injection hfa with hfa
        rw [← hfa]
        exact h2
      · rw [if_neg h2] at hfa
        exact Option.noConfusion hfa
  · rw [if_neg hd] at hq
    exact absurd hq (List.not_mem_nil q)

lemma smoothRowRaw_pos (p : NormParams) (i : ℕ) (conn : List (ℕ × ℚ)) (TDIi : ℚ) :
    ∀ q ∈ smoothRowRaw p i conn TDIi, 0 < q.2 :=
  fun q hq => lt_trans (by norm_num) (smoothRowRaw_gt p i conn TDIi q hq)

lemma smoothingSum_pos (p : NormParams) (i : ℕ) (conn : List (ℕ × ℚ)) (TDIi : ℚ)
    (hg : 0 < p.g1) : 0 < smoothingSum p i conn TDIi := by
  unfold smoothingSum smoothRowWithSelf mapInsertIfAbsent
  by_cases hany : (smoothRowRaw p i conn TDIi).any (fun q => q.1 == i)
  · rw [if_pos hany]
    apply List.sum_pos
    · intro x hx
      obtain ⟨q, hq, rfl⟩ := List.mem_map.mp hx
      exact smoothRowRaw_pos p i conn TDIi q hq
    · intro hnil
      rw [List.map_eq_nil_iff] at hnil
      rw [hnil] at hany
      exact Bool.noConfusion hany
  · rw [if_neg hany]
    rw [List.map_append, List.sum_append]
    apply add_pos_of_nonneg_of_pos
    · apply List.sum_nonneg
      intro x hx
      obtain ⟨q, hq, rfl⟩ := List.mem_map.mp hx
      exact le_of_lt (smoothRowRaw_pos p i conn TDIi q hq)
    · simpa using gaussianConst1_pos p hg

lemma smoothRowWithSelf_self_mem (p : NormParams) (i : ℕ) (conn : List (ℕ × ℚ))
    (TDIi : ℚ) : ∃ w, (i, w) ∈ smoothRowWithSelf p i conn TDIi := by
  unfold smoothRowWithSelf mapInsertIfAbsent
  by_cases hany : (smoothRowRaw p i conn TDIi).any (fun q => q.1 == i)
  · rw [if_pos hany]
    obtain ⟨q, hq, hqi⟩ := List.any_eq_true.mp hany
    rw [beq_iff_eq] at hqi
    refine ⟨q.2, ?_⟩
    have hq' : q = (i, q.2) := by
      rw [← hqi]
    rw [← hq']
    exact hq
  · rw [if_neg hany]
    exact ⟨gaussianConst1 p, List.mem_append_right _ (by simp)⟩

/-- C5: for every fixel `i`, after the per-row normalisation the smoothing
weights sum to exactly `1` (the model is exact rational arithmetic, hence
stronger than "within floating tolerance") and the self-term (key `i`) is
present.  The hypothesis `0 < g1` reflects `gaussian_const1 > 0`: it is
`1/(σ·sqrt(2π))` with `σ > 0`, or `1` when smoothing is disabled. -/
theorem smoothing_weights_normalised (p : NormParams) (i : ℕ)
    (conn : List (ℕ × ℚ)) (TDIi : ℚ) (hg : 0 < p.g1) :
    (((normaliseFixel p i conn TDIi).2.map Prod.snd).sum = 1) ∧
    (∃ w, (i, w) ∈ (normaliseFixel p i conn TDIi).2) := by
  have hS := smoothingSum_pos p i conn TDIi hg
  constructor
  · show (((smoothRowWithSelf p i conn TDIi).map
      (fun q => (q.1, q.2 * (1 / smoothingSum p i conn TDIi)))).map Prod.snd).sum = 1
    rw [List.map_map]
    have hcomp : (Prod.snd ∘ fun q : ℕ × ℚ =>
        (q.1, q.2 * (1 / smoothingSum p i conn TDIi)))
        = fun q : ℕ × ℚ => q.2 * (1 / smoothingSum p i conn TDIi) := rfl
    rw [hcomp, List.sum_map_mul_right]
    show smoothingSum p i conn TDIi * (1 / smoothingSum p i conn TDIi) = 1
    field_simp
  · obtain ⟨w, hw⟩ := smoothRowWithSelf_self_mem p i conn TDIi
    exact ⟨w * (1 / smoothingSum p i conn TDIi),
      List.mem_map.mpr ⟨(i, w), hw, rfl⟩⟩

/-- C10: the denominator `sum` of the smoothing-weight normalisation is
strictly positive — every neighbour weight recorded passed the `> 0.01`
guard, and the self-term inserted beforehand is `gaussian_const1`, which
is `1` when smoothing is disabled and `1/(σ·sqrt(2π)) > 0` (hypothesis
`0 < g1`) otherwise — so `norm_factor = 1.0 / sum` is a division by a
strictly positive number and never an infinity or `NaN` from a zero
denominator. -/
theorem smoothing_denominator_positive (p : NormParams) (i : ℕ)
    (conn : List (ℕ × ℚ)) (TDIi : ℚ) (hg : 0 < p.g1) :
    0 < smoothingSum p i conn TDIi ∧ smoothingSum p i conn TDIi ≠ 0 :=
  ⟨smoothingSum_pos p i conn TDIi hg, (smoothingSum_pos p i conn TDIi hg).ne'⟩

/-- C6: when the smoothing FWHM is `0` (so `smooth_std_dev = FWHM/2.3548`
is `0`), the smoothing row of every fixel is exactly the self-edge with
weight `1`, and smoothing with that row returns the input value unchanged
at every fixel whose input value is finite. -/
theorem smoothing_disabled_identity (p : NormParams) (i : ℕ)
    (conn : List (ℕ × ℚ)) (TDIi : ℚ) (hsig : p.smooth_std_dev = 0) :
    ((normaliseFixel p i conn TDIi).2 = [(i, 1)]) ∧
    (∀ y : ℕ → Option ℚ, (y i).isSome = true → smoothFixel [(i, 1)] y i = y i) := by
  have hns : doSmoothing p = false := by
    simp [doSmoothing, hsig]
  have hg1 : gaussianConst1 p = 1 := by
    simp [gaussianConst1, hsig]
  have hraw : smoothRowRaw p i conn TDIi = [] := by
    unfold smoothRowRaw
    rw [hns]
    simp
  have hws : smoothRowWithSelf p i conn TDIi = [(i, 1)] := by
    unfold smoothRowWithSelf mapInsertIfAbsent
    rw [hraw, hg1]
    simp
  have hsum : smoothingSum p i conn TDIi = 1 := by
    unfold smoothingSum
    rw [hws]
    simp
  constructor
  · show (smoothRowWithSelf p i conn TDIi).map
      (fun q => (q.1, q.2 * (1 / smoothingSum p i conn TDIi))) = [(i, 1)]
    rw [hws, hsum]
    norm_num
  · intro y hy
    obtain ⟨v, hv⟩ := Option.isSome_iff_exists.mp hy
    rw [hv]
    simp only [smoothFixel, hv, List.foldl_cons, List.foldl_nil]
    norm_num

/-- Concrete normalisation parameters with smoothing disabled
(`smooth_std_dev = 0`), identity `powC` and unit `gaussExp`. -/
def cxParams : NormParams :=
  ⟨1 / 100, 0, 1, fun _ => 1, fun x => x, fun _ => (0, 0, 0)⟩

/-- Concrete normalisation parameters with smoothing enabled
(`smooth_std_dev = 1`). -/
def wParams : NormParams :=
  ⟨1 / 100, 1, 1, fun _ => 1, fun x => x, fun _ => (0, 0, 0)⟩

/-- C4 counterexample: fixel `0` has one edge to fixel `1` with count `1`
and `TDI[0] = 100`, so the fraction is exactly the connectivity threshold
`1/100`.  The code RETAINS the edge (the erase branch requires
`fraction < threshold`), so the normalised row contains a non-self edge
whose fraction is not strictly greater than the threshold — refuting the
claim that every retained fraction lies strictly within
`(threshold, 1]`. -/
theorem connectivity_threshold_edge_not_strict :
    (((1 : ℕ), (1 : ℚ) / 100) ∈ (normaliseFixel cxParams 0 [(1, 1)] 100).1) ∧
    ¬ (cxParams.connectivity_threshold < (1 : ℚ) / 100) := by
  constructor
  · show ((1 : ℕ), (1 : ℚ) / 100) ∈
      mapInsertIfAbsent (connRowOut cxParams [(1, 1)] 100) 0 1
    have hrow : connRowOut cxParams [(1, 1)] 100 = [(1, (1 : ℚ) / 100)] := by
      unfold connRowOut
      simp only [List.filterMap_cons, List.filterMap_nil]
      rw [if_neg (by norm_num [cxParams])]
      norm_num [cxParams]
    rw [mapInsertIfAbsent, hrow]
    norm_num
  · show ¬ ((1 : ℚ) / 100 < (1 : ℚ) / 100)
    norm_num

theorem connectivity_normalisation_amended_witness :
    ((0 : ℚ) < 100 ∧ (∀ q ∈ [((1 : ℕ), (50 : ℚ))], q.2 ≤ 100) ∧
      (∀ q ∈ [((1 : ℕ), (50 : ℚ))], q.1 ≠ 0)) ∧
    (((0 : ℕ), (1 : ℚ)) ∈ (normaliseFixel cxParams 0 [(1, 50)] 100).1) :=
  ⟨⟨by norm_num, by norm_num, by simp⟩,
    (connectivity_normalisation_amended cxParams 0 [(1, 50)] 100
      (by norm_num) (by norm_num) (by simp)).1⟩

theorem smoothing_weights_normalised_witness :
    ((0 : ℚ) < wParams.g1) ∧
    (((normaliseFixel wParams 0 [(1, 50)] 100).2.map Prod.snd).sum = 1) :=
  ⟨by norm_num [wParams],
    (smoothing_weights_normalised wParams 0 [(1, 50)] 100 (by norm_num [wParams])).1⟩

theorem smoothing_denominator_positive_witness :
    ((0 : ℚ) < wParams.g1) ∧ (0 < smoothingSum wParams 0 [(1, 50)] 100) :=
  ⟨by norm_num [wParams],
    (smoothing_denominator_positive wParams 0 [(1, 50)] 100 (by norm_num [wParams])).1⟩

theorem smoothing_disabled_identity_witness :
    (cxParams.smooth_std_dev = 0) ∧
    ((normaliseFixel cxParams 0 [(1, 2)] 3).2 = [(0, 1)]) ∧
    (smoothFixel [(0, 1)] (fun _ => some 5) 0 = some 5) :=
  ⟨rfl,
   (smoothing_disabled_identity cxParams 0 [(1, 2)] 3 rfl).1,
   (smoothing_disabled_identity cxParams 0 [(1, 2)] 3 rfl).2 (fun _ => some 5) rfl⟩

/-! ## Streamline-count validation (cmd/fixelcfestats.cpp, lines 296–302)

    const size_t num_tracks = properties["count"].empty()
                                ? 0 : to<int> (properties["count"]);
    if (!num_tracks) throw Exception ("no tracks found in input file");
    if (num_tracks < 1000000) WARN (...);

The declared count is modelled as `Option ℕ` (`none` = the property is
absent, which the code maps to `0`); the result carries the parsed count
and whether the low-count warning was emitted. -/

def checkNumTracks (count : Option ℕ) : Except String (ℕ × Bool) :=
  if count.getD 0 = 0 then .error "no tracks found in input file"
  else .ok (count.getD 0, decide (count.getD 0 < 1000000))

/-- C9: the run fails (the throw precedes the connectivity accumulation,
which only starts afterwards at line 303) exactly when the declared
streamline count is `0` (or the property is absent, which the code treats
as `0`); a positive count below one million yields a warning (`true` flag)
but proceeds (`ok`), and a count of at least one million proceeds without
the warning. -/
theorem num_tracks_validation (count : Option ℕ) (n : ℕ) :
    ((∃ e, checkNumTracks count = .error e) ↔ count.getD 0 = 0) ∧
    (0 < n → n < 1000000 → checkNumTracks (some n) = .ok (n, true)) ∧
    (1000000 ≤ n → checkNumTracks (some n) = .ok (n, false)) := by
  refine ⟨?_, ?_, ?_⟩
  · unfold checkNumTracks
    by_cases h : count.getD 0 = 0
    · rw [if_pos h]
      exact ⟨fun _ => h, fun _ => ⟨_, rfl⟩⟩
    · rw [if_neg h]
      constructor
      · rintro ⟨e, he⟩
        exact Except.noConfusion he
      · intro hc
        exact absurd hc h
  · intro h1 h2
    unfold checkNumTracks
    rw [if_neg (by simpa using Nat.pos_iff_ne_zero.mp h1)]
    simp [h2]
  · intro h1
    unfold checkNumTracks
    rw [if_neg (by simp; omega)]
    simp
    omega

theorem num_tracks_validation_witness :
    (0 < 5 ∧ 5 < 1000000) ∧ checkNumTracks (some 5) = .ok (5, true) :=
  ⟨by omega,
    (num_tracks_validation (some 5) 5).2.1 (by omega) (by omega)⟩

/-- The direct per-fixel least-squares t-value of the claim: for row `r`,
`beta = y_row · pinv(X)ᵀ`, `residual = y_row − beta · Xᵀ`,
`t = (beta · scaled_c) / ‖residual‖`, with a zero-norm (non-finite)
result replaced by `0`. -/
def directTvalue (X pinvX sc : Mat) (sqrtFn : ℚ → ℚ) (y : Mat) (r : ℕ) : ℚ :=
  if (∑ j ∈ Finset.range y.cols,
        (y.entry r j - ∑ k ∈ Finset.range pinvX.rows,
          (∑ s ∈ Finset.range y.cols, y.entry r s * pinvX.entry k s)
            * X.entry j k) ^ 2) = 0
  then 0
  else (∑ k ∈ Finset.range pinvX.rows,
          (∑ s ∈ Finset.range y.cols, y.entry r s * pinvX.entry k s)
            * sc.entry k 0)
        / sqrtFn (∑ j ∈ Finset.range y.cols,
            (y.entry r j - ∑ k ∈ Finset.range pinvX.rows,
              (∑ s ∈ Finset.range y.cols, y.entry r s * pinvX.entry k s)
                * X.entry j k) ^ 2)

lemma glmRowStep_foldl_stats (t r : Mat) (i : ℕ) :
    ∀ (m : ℕ) (acc : (ℕ → ℚ) × ℚ × ℚ) (k : ℕ),
      ((List.range m).foldl (glmRowStep t r i) acc).1 (i + k)
        = if k < m then (if rowSumSq r k = 0 then 0 else t.entry k 0)
          else acc.1 (i + k) := by
  intro m
  induction m with
  | zero =>
    intro acc k
    simp
  | succ m ih =>
    intro acc k
    rw [List.range_succ, List.foldl_append, List.foldl_cons, List.foldl_nil]
    simp only [glmRowStep]
    by_cases hkm : k = m
    · subst hkm
      rw [Function.update_same, if_pos (Nat.lt_succ_self k)]
    · rw [Function.update_noteq (by omega : i + k ≠ i + m), ih acc k]
      by_cases hk : k < m
      · have hk1 : k < m + 1 := by omega
        rw [if_pos hk, if_pos hk1]
      · have hk1 : ¬ k < m + 1 := by omega
        rw [if_neg hk, if_neg hk1]

/-- Supporting fact for the batching analysis: whenever the measurement
matrix fits in a single batch (`N ≤ GLM_BATCH_SIZE`), the stats vector
produced by `GLMTTest::operator()` under the identity permutation equals
the direct least-squares t-values, fixel by fixel.  (For `N` above the
batch size the loop's block extent leaves the matrix, see
`glmBatchStarts`/`glmBlockRows`.) -/
lemma glmttest_identity_single_batch (X pinvX sc : Mat) (sqrtFn : ℚ → ℚ)
    (y : Mat) (max0 min0 : ℚ) (hN : y.rows ≤ GLM_BATCH_SIZE) :
    (glmttest_run X pinvX sc sqrtFn (fun s => s) y max0 min0).1
      = (List.range y.rows).map (directTvalue X pinvX sc sqrtFn y) := by
  by_cases h0 : y.rows = 0
  · simp [glmttest_run, glmBatchStarts, h0]
  · have hstarts : glmBatchStarts y.rows = [0] := by
      unfold glmBatchStarts GLM_BATCH_SIZE
      have h1 : (y.rows + 1024 - 1) / 1024 = 1 := by
        unfold GLM_BATCH_SIZE at hN
        omega
      rw [h1]
      rfl
    have hrows : glmBlockRows y.rows 0 = y.rows := by
      unfold glmBlockRows GLM_BATCH_SIZE
      unfold GLM_BATCH_SIZE at hN
      omega
    simp only [glmttest_run, hstarts, List.foldl_cons, List.foldl_nil,
      glmBatchStep, hrows]
    apply List.map_congr_left
    intro k hk
    rw [List.mem_range] at hk
    have hidx : k = 0 + k := (Nat.zero_add k).symm
    rw [hidx, glmRowStep_foldl_stats, if_pos (by omega : k < y.rows)]
    simp only [ttest, matMul, matSub, matTranspose, rowSumSq, directTvalue,
      Nat.zero_add]
